import Mathlib

/-!
A shallow embedding of `pdf_analyzer.py` (the text-analysis pipeline of the
DataAnalysis repository) and proofs about it.

Text is modelled as `List Char`.  Python's `\w` and whitespace classes are
modelled over ASCII (all inputs appearing in the claims are ASCII).
Python's arbitrary-precision integers are modelled as `Nat` (all quantities
here are nonnegative counts), and float division of nonnegative integers is
modelled as division in `ℚ`.
-/

namespace PdfAnalyzer

/-- ASCII model of Python's whitespace class (`str.split`, `str.strip`, `\s`):
space, tab, newline, carriage return, vertical tab, form feed. -/
def isPySpace (c : Char) : Bool :=
  c == ' ' || c == '\t' || c == '\n' || c == '\r' || c == '\x0b' || c == '\x0c'

/-- ASCII model of Python's `\w` regex class: letters, digits, underscore. -/
def isWordChar (c : Char) : Bool :=
  c.isAlphanum || c == '_'

/-- Python `str.strip()`: remove leading and trailing whitespace. -/
def pyStrip (s : List Char) : List Char :=
  ((s.dropWhile isPySpace).reverse.dropWhile isPySpace).reverse

/-- Helper for `pySplit`: walk the characters keeping the (reversed) current
token in `acc`; whitespace runs end tokens, and tokens are emitted nonempty. -/
def pySplitAux : List Char → List Char → List (List Char)
  | [], acc => if acc.isEmpty then [] else [acc.reverse]
  | c :: rest, acc =>
    if isPySpace c then
      if acc.isEmpty then pySplitAux rest []
      else acc.reverse :: pySplitAux rest []
    else pySplitAux rest (c :: acc)

/-- Python `text.split()` (no separator argument): split on runs of
whitespace, returning the nonempty tokens.  Embeds `text.split()` at
line 60 of `pdf_analyzer.py`. -/
def pySplit (t : List Char) : List (List Char) :=
  pySplitAux t []

/-- Python `re.split(r'[.!?]+', text)`: segments of `t` between (collapsed)
runs of characters satisfying `isSep`; empty segments appear at the start or
end exactly as CPython produces them. -/
def splitSepRuns (isSep : Char → Bool) : List Char → List (List Char)
  | [] => [[]]
  | c :: rest =>
    let g := splitSepRuns isSep rest
    if isSep c then
      match rest with
      | [] => [] :: g
      | d :: _ => if isSep d then g else [] :: g
    else
      match g with
      | [] => [[c]]
      | seg :: segs => (c :: seg) :: segs

/-- The sentence separators of `re.split(r'[.!?]+', text)` (line 66). -/
def isSentenceSep (c : Char) : Bool :=
  c == '.' || c == '!' || c == '?'

/-- Python `text.split('\n\n')` (line 70): split on each non-overlapping
occurrence of the exact two-character separator, scanning left to right. -/
def splitBlank : List Char → List (List Char)
  | [] => [[]]
  | '\n' :: '\n' :: rest => [] :: splitBlank rest
  | c :: rest =>
    match splitBlank rest with
    | [] => [[c]]
    | seg :: segs => (c :: seg) :: segs

/-- Line 66-67: `sentence_count = len([s for s in re.split(r'[.!?]+', text) if s.strip()])`. -/
def sentence_count (t : List Char) : Nat :=
  (splitSepRuns isSentenceSep t).countP (fun s => !(pyStrip s).isEmpty)

/-- Line 70-71: `paragraph_count = len([p for p in text.split('\n\n') if p.strip()])`. -/
def paragraph_count (t : List Char) : Nat :=
  (splitBlank t).countP (fun s => !(pyStrip s).isEmpty)

/-- Line 75: the normalization `re.sub(r'[^\w\s]', '', word).lower()` applied
to one token: remove the characters that are neither word characters nor
whitespace, then lowercase (ASCII model). -/
def cleanWord (w : List Char) : List Char :=
  (w.filter (fun c => isWordChar c || isPySpace c)).map Char.toLower

/-- Line 75: `clean_words = [re.sub(r'[^\w\s]', '', word).lower() for word in words if word.strip()]`.
Note the guard `if word.strip()` tests the original token, before cleaning. -/
def clean_words (t : List Char) : List (List Char) :=
  ((pySplit t).filter (fun w => !(pyStrip w).isEmpty)).map cleanWord

/-- One step of Python's `collections.Counter` built from a list: increment
the count of an existing key in place, or append a new key with count 1.
The association list keeps keys in first-insertion order, as CPython dicts do. -/
def counterAdd (acc : List (List Char × Nat)) (w : List Char) : List (List Char × Nat) :=
  if w ∈ acc.map Prod.fst then
    acc.map (fun p => if p.1 = w then (p.1, p.2 + 1) else p)
  else
    acc ++ [(w, 1)]

/-- Line 76: `word_freq = Counter(clean_words)`, as an association list in
key-first-insertion order. -/
def word_freq (t : List Char) : List (List Char × Nat) :=
  (clean_words t).foldl counterAdd []

/-- Lines 79-87: the fixed stop-word set.  It contains the empty string
(written `''` in the source). -/
def stop_words : List (List Char) :=
  (["the", "a", "an", "and", "or", "but", "in", "on", "at", "to", "for",
    "of", "with", "is", "was", "are", "were", "be", "been", "being",
    "have", "has", "had", "do", "does", "did", "will", "would", "could",
    "should", "may", "might", "can", "this", "that", "these", "those",
    "i", "you", "he", "she", "it", "we", "they", "them", "their",
    "what", "which", "who", "when", "where", "why", "how", "all",
    "each", "every", "both", "few", "more", "most", "other", "some",
    "such", "no", "nor", "not", "only", "own", "same", "so", "than",
    "too", "very", "as", "from", "by", ""]).map String.toList

/-- Lines 89-90: `meaningful_words = {word: count for word, count in
word_freq.items() if word not in stop_words and len(word) > 2}` — a dict
comprehension, so key order is inherited from `word_freq`. -/
def meaningful_words (t : List Char) : List (List Char × Nat) :=
  (word_freq t).filter (fun p => decide (p.1 ∉ stop_words) && decide (2 < p.1.length))

/-- Comparison used to model `Counter.most_common(n)`: descending count. -/
def countGE (a b : List Char × Nat) : Prop :=
  b.2 ≤ a.2

instance : DecidableRel countGE :=
  fun a b => inferInstanceAs (Decidable (b.2 ≤ a.2))

instance : IsTotal (List Char × Nat) countGE :=
  ⟨fun a b => Nat.le_total b.2 a.2⟩

instance : IsTrans (List Char × Nat) countGE :=
  ⟨fun _ _ _ h1 h2 => Nat.le_trans h2 h1⟩

/-- Line 103: `Counter(meaningful_words).most_common(30)`.  CPython documents
`most_common(n)` as `sorted(items, key=itemgetter(1), reverse=True)[:n]` with
a stable sort over the dict's insertion order; any stable sort by descending
count computes the same list, so it is modelled by a stable insertion sort. -/
def top_words (t : List Char) : List (List Char × Nat) :=
  ((meaningful_words t).insertionSort countGE).take 30

/-- Number of distinct elements, keeping first occurrences: used to model
`len(set(clean_words))` (only its length matters there) and the insertion
order of a Python `set` built by successive `add` calls. -/
def dedupFirst : List (List Char) → List (List Char)
  | [] => []
  | w :: ws => w :: (dedupFirst ws).filter (fun x => decide (x ≠ w))

/-- Line 93: `total_word_length = sum(len(word) for word in clean_words)`. -/
def total_word_length (t : List Char) : Nat :=
  ((clean_words t).map List.length).sum

/-- The result record of `analyze_text` (lines 96-106). -/
structure Analysis where
  word_count : Nat
  char_count : Nat
  char_count_no_spaces : Nat
  sentence_count : Nat
  paragraph_count : Nat
  unique_words : Nat
  top_words : List (List Char × Nat)
  avg_word_length : ℚ
  avg_sentence_length : ℚ
deriving DecidableEq, Repr

/-- Lines 49-106: `analyze_text(text)`.  `char_count_no_spaces` embeds
`len(text.replace(' ', ''))`: replacing the one-character pattern `' '` by
the empty string deletes exactly the space characters, i.e. filters them out. -/
def analyze_text (t : List Char) : Analysis :=
  let ws := pySplit t
  let cw := clean_words t
  let sc := sentence_count t
  { word_count := ws.length
    char_count := t.length
    char_count_no_spaces := (t.filter (fun c => c != ' ')).length
    sentence_count := sc
    paragraph_count := paragraph_count t
    unique_words := (dedupFirst cw).length
    top_words := top_words t
    avg_word_length := if 0 < cw.length then (total_word_length t : ℚ) / (cw.length : ℚ) else 0
    avg_sentence_length := if 0 < sc then (ws.length : ℚ) / (sc : ℚ) else 0 }

/-! ## Section detector (`find_key_sections`, lines 109-143)

Each section pattern is `(?i)(w1|w2|...)` where every `wi` is a literal
(the one quantifier, `acknowledgments?`, is expanded into its two literal
alternatives in greedy order).  On such a pattern `re.finditer` scans left
to right, at each offset trying the alternatives in order, and after a
match resumes at its end (non-overlapping). -/

/-- Does the literal `w` (given lowercase, as in the source patterns) match
case-insensitively at the head of `s`? -/
def ciStarts : List Char → List Char → Bool
  | [], _ => true
  | _ :: _, [] => false
  | p :: ps, c :: cs => (c.toLower == p) && ciStarts ps cs

/-- First alternative of `alts` matching at the head of `s`, returning the
length of the matched text (the literal's length). -/
def matchLenAt (alts : List (List Char)) (s : List Char) : Option Nat :=
  match alts with
  | [] => none
  | w :: ws => if ciStarts w s then some w.length else matchLenAt ws s

/-- Does the alternation match at offset `k` of the text `t`? -/
def matchAtB (alts : List (List Char)) (t : List Char) (k : Nat) : Bool :=
  (matchLenAt alts (t.drop k)).isSome

/-- `re.finditer` match positions (line 132-133): scan the suffix `s`, whose
first character sits at absolute offset `i`; on a match of length `len`
record `i` and resume past the match.  `fuel` is a structural-recursion
bound; `scanPositions` supplies enough of it, since every step either
consumes one character or a whole (nonempty) match. -/
def scanPosF (alts : List (List Char)) : Nat → Nat → List Char → List Nat
  | 0, _, _ => []
  | _ + 1, _, [] => []
  | fuel + 1, i, c :: rest =>
    match matchLenAt alts (c :: rest) with
    | some len => i :: scanPosF alts fuel (i + len) (rest.drop (len - 1))
    | none => scanPosF alts fuel (i + 1) rest

/-- `positions = [match.start() for match in re.finditer(pattern, text)]`. -/
def scanPositions (alts : List (List Char)) (t : List Char) : List Nat :=
  scanPosF alts (t.length + 1) 0 t

/-- A per-section result of `find_key_sections` (lines 134-141): the Python
dict holds the keys `occurrences` and `first_position` only when `found`
is true, which is modelled by `Option` fields. -/
structure SectionRecord where
  found : Bool
  occurrences : Option Nat
  first_position : Option Nat
deriving DecidableEq, Repr

/-- Lines 131-141: build one section's record from its match positions. -/
def sectionRecord (alts : List (List Char)) (t : List Char) : SectionRecord :=
  match scanPositions alts t with
  | [] => { found := false, occurrences := none, first_position := none }
  | p :: ps => { found := true, occurrences := some (p :: ps).length, first_position := some p }

/-- Lines 122-129: the fixed section patterns, in source order, each as its
list of literal alternatives in source order (`acknowledgments?` and
`acknowledgements?` are expanded greedily). -/
def section_patterns : List (String × List (List Char)) :=
  [("introduction", ["introduction", "overview", "abstract"].map String.toList),
   ("methodology", ["method", "methodology", "approach", "procedure"].map String.toList),
   ("results", ["results", "findings", "outcomes"].map String.toList),
   ("conclusion", ["conclusion", "final remarks", "closing"].map String.toList),
   ("references", ["references", "bibliography", "citations", "works cited"].map String.toList),
   ("acknowledgments",
    ["acknowledgments", "acknowledgment", "acknowledgements", "acknowledgement"].map String.toList)]

/-- Lines 109-143: `find_key_sections(text)`. -/
def find_key_sections (t : List Char) : List (String × SectionRecord) :=
  section_patterns.map (fun p => (p.1, sectionRecord p.2 t))

/-! ## Numeric/date extractor (`extract_numbers_and_dates`, lines 146-178)

The combined pattern (line 158) is

  `\b\d+(?:\.\d+)?%?\b|\b\d{1,2}[<sep>]\d{1,2}[<sep>]\d{2,4}\b|\b\d{4}[<sep>]\d{1,2}[<sep>]\d{1,2}\b`

where `[<sep>]` abbreviates the character class of `/` and dash.
It is embedded as a backtracking matcher in continuation-passing style:
each piece consumes characters from the current suffix, threading the
previously consumed character (for `\b` tests) and a continuation; greedy
pieces try the longer parse first and fall back via `<|>`.  Alternatives
are tried left to right at each position, as `re` does. -/

/-- Is the optional character a word character (`false` at the text edge)? -/
def optIsWord : Option Char → Bool
  | none => false
  | some c => isWordChar c

/-- The `\b` test between the previously consumed character `a` and the
current suffix `s`. -/
def atBoundary (a : Option Char) (s : List Char) : Bool :=
  optIsWord a != optIsWord s.head?

/-- Continuations receive the last consumed character and the rest. -/
abbrev MatchCont : Type :=
  Option Char → List Char → Option (List Char)

/-- Consume exactly one character satisfying `p`. -/
def chompOne (p : Char → Bool) (a : Option Char) (s : List Char) (k : MatchCont) :
    Option (List Char) :=
  match a, s with
  | _, [] => none
  | _, c :: rest => if p c then k (some c) rest else none

/-- Greedily consume characters satisfying `p` (`p*`), backtracking one
character at a time when the continuation fails. -/
def chompMany (p : Char → Bool) (a : Option Char) (s : List Char) (k : MatchCont) :
    Option (List Char) :=
  match s with
  | [] => k a []
  | c :: rest =>
    if p c then chompMany p (some c) rest k <|> k a (c :: rest)
    else k a (c :: rest)

/-- A greedy optional group (`(...)?`): try the group, then skipping it. -/
def optPart (m : Option Char → List Char → MatchCont → Option (List Char))
    (a : Option Char) (s : List Char) (k : MatchCont) : Option (List Char) :=
  m a s k <|> k a s

/-- The separator class `[<sep>]`. -/
def isSep (c : Char) : Bool :=
  c == '/' || c == '-'

/-- Terminal continuation: the whole alternative ends with `\b`. -/
def endBoundary : MatchCont :=
  fun a s => if atBoundary a s then some s else none

/-- `\d{1,2}` (greedy): one digit, then optionally a second. -/
def oneTwoDigits (a : Option Char) (s : List Char) (k : MatchCont) : Option (List Char) :=
  chompOne Char.isDigit a s (fun a1 s1 => optPart (chompOne Char.isDigit) a1 s1 k)

/-- `\d{2,4}` (greedy): two digits, then optionally a third and fourth. -/
def twoFourDigits (a : Option Char) (s : List Char) (k : MatchCont) : Option (List Char) :=
  chompOne Char.isDigit a s (fun a1 s1 =>
    chompOne Char.isDigit a1 s1 (fun a2 s2 =>
      optPart (fun b t k2 =>
        chompOne Char.isDigit b t (fun b1 t1 => optPart (chompOne Char.isDigit) b1 t1 k2))
        a2 s2 k))

/-- First alternative `\b\d+(?:\.\d+)?%?\b`: returns the suffix after the
match, or `none`. -/
def matchNumberAlt (a : Option Char) (s : List Char) : Option (List Char) :=
  if atBoundary a s then
    chompOne Char.isDigit a s (fun a1 s1 =>
      chompMany Char.isDigit a1 s1 (fun a2 s2 =>
        optPart
          (fun b t k2 =>
            chompOne (fun c => c == '.') b t (fun b1 t1 =>
              chompOne Char.isDigit b1 t1 (fun b2 t2 =>
                chompMany Char.isDigit b2 t2 k2)))
          a2 s2
          (fun a3 s3 => optPart (chompOne (fun c => c == '%')) a3 s3 endBoundary)))
  else none

/-- Second alternative `\b\d{1,2}[<sep>]\d{1,2}[<sep>]\d{2,4}\b`. -/
def matchDayFirstDate (a : Option Char) (s : List Char) : Option (List Char) :=
  if atBoundary a s then
    oneTwoDigits a s (fun a1 s1 =>
      chompOne isSep a1 s1 (fun a2 s2 =>
        oneTwoDigits a2 s2 (fun a3 s3 =>
          chompOne isSep a3 s3 (fun a4 s4 =>
            twoFourDigits a4 s4 endBoundary))))
  else none

/-- Third alternative `\b\d{4}[<sep>]\d{1,2}[<sep>]\d{1,2}\b`. -/
def matchYearFirstDate (a : Option Char) (s : List Char) : Option (List Char) :=
  if atBoundary a s then
    chompOne Char.isDigit a s (fun a1 s1 =>
      chompOne Char.isDigit a1 s1 (fun a2 s2 =>
        chompOne Char.isDigit a2 s2 (fun a3 s3 =>
          chompOne Char.isDigit a3 s3 (fun a4 s4 =>
            chompOne isSep a4 s4 (fun a5 s5 =>
              oneTwoDigits a5 s5 (fun a6 s6 =>
                chompOne isSep a6 s6 (fun a7 s7 =>
                  oneTwoDigits a7 s7 endBoundary)))))))
  else none

/-- The combined pattern: the three alternatives tried left to right. -/
def combinedMatch (a : Option Char) (s : List Char) : Option (List Char) :=
  matchNumberAlt a s <|> matchDayFirstDate a s <|> matchYearFirstDate a s

/-- `re.finditer(combined_pattern, text)` (line 164): the list of matched
substrings, scanning left to right and resuming after each match.  `fuel`
is a structural-recursion bound; `numTokens` supplies enough, since every
step consumes at least one character. -/
def numScanF : Nat → Option Char → List Char → List (List Char)
  | 0, _, _ => []
  | _ + 1, _, [] => []
  | fuel + 1, a, c :: rest =>
    match combinedMatch a (c :: rest) with
    | some s2 =>
      let len := (c :: rest).length - s2.length
      let tok := (c :: rest).take len
      tok :: numScanF fuel tok.getLast? s2
    | none => numScanF fuel (some c) rest

/-- All matches of the combined pattern in `t`, in order. -/
def numTokens (t : List Char) : List (List Char) :=
  numScanF (t.length + 1) none t

/-- Line 166: `'/' in matched_text or '-' in matched_text`. -/
def isDateTok (tok : List Char) : Bool :=
  tok.contains '/' || tok.contains '-'

/-- Line 171: `len(matched_text) == 4 and matched_text.startswith(('19', '20'))`. -/
def isYearTok (tok : List Char) : Bool :=
  tok.length == 4 && (tok.take 2 == ['1', '9'] || tok.take 2 == ['2', '0'])

/-- The result record of `extract_numbers_and_dates` (lines 174-178). -/
structure NumericSummary where
  numbers_count : Nat
  dates_count : Nat
  years_found : List (List Char)
deriving DecidableEq, Repr

/-- Lines 146-178: `extract_numbers_and_dates(text)`.  The loop appends each
match to `dates` or `numbers` in match order, and adds qualifying number
tokens to the `years` set; `list(years)[:20]` iterates the set in an order
CPython does not specify, modelled here as insertion order (the claims about
`years_found` only concern membership). -/
def extract_numbers_and_dates (t : List Char) : NumericSummary :=
  let toks := numTokens t
  let dates := toks.filter isDateTok
  let numbers := toks.filter (fun x => !isDateTok x)
  let years := dedupFirst (numbers.filter isYearTok)
  { numbers_count := numbers.length
    dates_count := dates.length
    years_found := years.take 20 }

/-! ## Report preview (`generate_report`, lines 242-245) and guarded averages -/

/-- Lines 242-245 of `generate_report`: the lines appended for the text
preview block: `preview = text[:500].strip()` is appended, and the ellipsis
line `"..."` is appended exactly when `len(text) > 500`. -/
def report_preview (t : List Char) : List (List Char) :=
  [pyStrip (t.take 500)] ++ (if 500 < t.length then [['.', '.', '.']] else [])

/-- Python float division, made partial the way CPython is: dividing by zero
raises `ZeroDivisionError`, modelled as `none`. -/
def pyDiv (a b : ℚ) : Option ℚ :=
  if b = 0 then none else some (a / b)

/-- Line 104 with explicit partiality: `total_word_length / word_list_length
if word_list_length > 0 else 0` — the division is evaluated only under the
guard. -/
def avg_word_length_checked (t : List Char) : Option ℚ :=
  if 0 < (clean_words t).length then
    pyDiv (total_word_length t : ℚ) ((clean_words t).length : ℚ)
  else some 0

/-- Line 105 with explicit partiality: `word_count / sentence_count if
sentence_count > 0 else 0`. -/
def avg_sentence_length_checked (t : List Char) : Option ℚ :=
  if 0 < sentence_count t then
    pyDiv ((pySplit t).length : ℚ) (sentence_count t : ℚ)
  else some 0

/-- Index of the first occurrence of `w` in a token list (the length of the
list when `w` does not occur): the position of a word's first occurrence in
the normalized token stream. -/
def firstIdx (w : List Char) : List (List Char) → Nat
  | [] => 0
  | x :: xs => if x = w then 0 else firstIdx w xs + 1

/-- The matching predicate asserted by claim C2 (not implemented by the
code): a whole-word, case-insensitive occurrence of one of the synonyms at
offset `p`, i.e. a match delimited by word boundaries on both sides.  Used
only to compare the claim against `sectionRecord`. -/
def specWholeWordMatch (alts : List (List Char)) (t : List Char) (p : Nat) : Bool :=
  alts.any (fun w =>
    ciStarts w (t.drop p) &&
    atBoundary (t.take p).getLast? (t.drop p) &&
    atBoundary (t.take (p + w.length)).getLast? (t.drop (p + w.length)))

/-! ## General lemmas about the tokenizers -/

theorem dropWhile_eq_self_of_nonspace {w : List Char}
    (h : ∀ c ∈ w, isPySpace c = false) : w.dropWhile isPySpace = w := by
  cases w with
  | nil => rfl
  | cons c cs =>
    rw [List.dropWhile_cons]
    simp [h c (List.mem_cons_self c cs)]

theorem pyStrip_eq_self_of_nonspace {w : List Char}
    (h : ∀ c ∈ w, isPySpace c = false) : pyStrip w = w := by
  unfold pyStrip
  rw [dropWhile_eq_self_of_nonspace h]
  rw [dropWhile_eq_self_of_nonspace (by intro c hc; exact h c (List.mem_reverse.mp hc))]
  exact List.reverse_reverse w

theorem pySplitAux_tokens :
    ∀ (s acc : List Char), (∀ c ∈ acc, isPySpace c = false) →
      ∀ w ∈ pySplitAux s acc, w ≠ [] ∧ ∀ c ∈ w, isPySpace c = false := by
  intro s
  induction s with
  | nil =>
    intro acc hacc w hw
    rw [pySplitAux] at hw
    by_cases he : acc.isEmpty
    · simp [he] at hw
    · simp [he] at hw
      subst hw
      refine ⟨?_, ?_⟩
      · intro hrev
        have : acc = [] := by simpa using congrArg List.reverse hrev
        rw [this] at he
        exact he rfl
      · intro c hc
        exact hacc c (List.mem_reverse.mp hc)
  | cons c rest ih =>
    intro acc hacc w hw
    rw [pySplitAux] at hw
    by_cases hsp : isPySpace c
    · simp only [hsp, if_true] at hw
      by_cases he : acc.isEmpty
      · simp only [he, if_true] at hw
        exact ih [] (by simp) w hw
      · simp only [he, if_false] at hw
        rcases List.mem_cons.mp hw with h1 | h1
        · subst h1
          refine ⟨?_, ?_⟩
          · intro hrev
            have : acc = [] := by simpa using congrArg List.reverse hrev
            rw [this] at he
            exact he rfl
          · intro d hd
            exact hacc d (List.mem_reverse.mp hd)
        · exact ih [] (by simp) w h1
    · simp only [hsp, if_false] at hw
      refine ih (c :: acc) ?_ w hw
      intro d hd
      rcases List.mem_cons.mp hd with h1 | h1
      · subst h1
        simpa using hsp
      · exact hacc d h1

theorem pySplit_tokens {t : List Char} :
    ∀ w ∈ pySplit t, w ≠ [] ∧ ∀ c ∈ w, isPySpace c = false :=
  pySplitAux_tokens t [] (by simp)

theorem clean_words_length (t : List Char) :
    (clean_words t).length = (pySplit t).length := by
  unfold clean_words
  rw [List.length_map]
  congr 1
  apply List.filter_eq_self.mpr
  intro w hw
  obtain ⟨hne, hns⟩ := pySplit_tokens w hw
  rw [pyStrip_eq_self_of_nonspace hns]
  simpa using hne

theorem filter_nonspace_length (t : List Char) :
    (t.filter (fun c => c != ' ')).length + t.count ' ' = t.length := by
  induction t with
  | nil => rfl
  | cons c rest ih =>
    by_cases h : c = ' '
    · subst h
      have h1 : (' ' :: rest).filter (fun c => c != ' ') = rest.filter (fun c => c != ' ') := by
        rw [List.filter_cons]
        simp
      have h2 : List.count ' ' (' ' :: rest) = List.count ' ' rest + 1 := by
        simp [List.count_cons]
      rw [h1, h2, List.length_cons]
      omega
    · have h1 : (c :: rest).filter (fun c => c != ' ') = c :: rest.filter (fun c => c != ' ') := by
        rw [List.filter_cons]
        simp [bne, h]
      have h2 : List.count ' ' (c :: rest) = List.count ' ' rest := by
        simp [List.count_cons, h]
      rw [h1, h2, List.length_cons, List.length_cons]
      omega

theorem pyStrip_isInfix (s : List Char) : pyStrip s <:+: s := by
  unfold pyStrip
  have h1 : s.dropWhile isPySpace <:+ s := List.dropWhile_suffix _
  have h2 : (s.dropWhile isPySpace).reverse.dropWhile isPySpace <:+
      (s.dropWhile isPySpace).reverse := List.dropWhile_suffix _
  have h3 : ((s.dropWhile isPySpace).reverse.dropWhile isPySpace).reverse <+:
      s.dropWhile isPySpace := by
    rw [← List.reverse_suffix]
    simpa using h2
  exact List.IsInfix.trans h3.isInfix h1.isInfix

theorem dedupFirst_length_le (ws : List (List Char)) :
    (dedupFirst ws).length ≤ ws.length := by
  induction ws with
  | nil => simp [dedupFirst]
  | cons w ws ih =>
    rw [dedupFirst]
    simp only [List.length_cons]
    have := List.length_filter_le (fun x => decide (x ≠ w)) (dedupFirst ws)
    omega

/-! ## Claim theorems for the statistics analyzer (easy claims) -/

/-- C7: on empty input text, `analyze_text` returns all counts 0, an empty
top-words list and both averages 0; `find_key_sections` reports found=False
for every section; and `extract_numbers_and_dates` returns zero counts and
an empty years list. -/
theorem empty_text_results :
    analyze_text [] =
      { word_count := 0, char_count := 0, char_count_no_spaces := 0,
        sentence_count := 0, paragraph_count := 0, unique_words := 0, top_words := [],
        avg_word_length := 0, avg_sentence_length := 0 } ∧
    (find_key_sections []).all (fun p => !p.2.found) = true ∧
    extract_numbers_and_dates [] =
      { numbers_count := 0, dates_count := 0, years_found := [] } := by
  decide

/-- C1: on the spec's test string the combined scan never classifies a date:
the number alternative is tried first and `\d+` followed by `/` always ends
at a word boundary, so `01/02/2020` is consumed as the three number tokens
`01`, `02`, `2020`; hence `dates_count = 0`, `2020` lands in `years_found`,
and the percentage token is matched as `45.5` (the trailing `%` fails the
final `\b` before a space).  This contradicts the claim, which expects the
date alternative to win. -/
theorem extractor_spec_input_result :
    extract_numbers_and_dates
        "The year 1999 and 2023 appeared, on 01/02/2020, with 45.5% growth.".toList =
      { numbers_count := 6, dates_count := 0,
        years_found := ["1999".toList, "2023".toList, "2020".toList] } ∧
    "2020".toList ∈
      (extract_numbers_and_dates
        "The year 1999 and 2023 appeared, on 01/02/2020, with 45.5% growth.".toList).years_found ∧
    numTokens "The year 1999 and 2023 appeared, on 01/02/2020, with 45.5% growth.".toList =
      ["1999".toList, "2023".toList, "01".toList, "02".toList, "2020".toList, "45.5".toList] := by
  decide

/-- C4 (amended): `char_count` is the total length, while
`char_count_no_spaces` excludes exactly the space characters `' '` (tabs
and line breaks are still counted, since the source uses
`text.replace(' ', '')`). -/
theorem char_count_fields (t : List Char) :
    (analyze_text t).char_count = t.length ∧
    (analyze_text t).char_count_no_spaces + t.count ' ' = t.length := by
  constructor
  · rfl
  · show (t.filter (fun c => c != ' ')).length + t.count ' ' = t.length
    exact filter_nonspace_length t

/-- C4 counterexample: on the text `a TAB b` the code counts 3 characters
"without whitespace" (the tab is kept), while the claim's reading — all
whitespace excluded — would give 2. -/
theorem char_count_no_spaces_keeps_tabs :
    (analyze_text ['a', '\t', 'b']).char_count_no_spaces = 3 ∧
    (['a', '\t', 'b'].filter (fun c => !isPySpace c)).length = 2 := by
  decide

/-- C5 (amended): the preview block starts with the first 500 characters of
the text with leading and trailing whitespace stripped (not verbatim), that
line is a contiguous substring of the first 500 characters of length at
most 500, and the ellipsis line is appended exactly when the text is longer
than 500 characters. -/
theorem report_preview_first_500_stripped (t : List Char) :
    (report_preview t).head? = some (pyStrip (t.take 500)) ∧
    (pyStrip (t.take 500)).length ≤ 500 ∧
    pyStrip (t.take 500) <:+: t.take 500 ∧
    (500 < t.length → report_preview t = [pyStrip (t.take 500), ['.', '.', '.']]) ∧
    (t.length ≤ 500 → report_preview t = [pyStrip (t.take 500)]) := by
  refine ⟨rfl, ?_, pyStrip_isInfix _, ?_, ?_⟩
  · have h1 := (pyStrip_isInfix (t.take 500)).sublist.length_le
    have h2 : (t.take 500).length ≤ 500 := by
      simp
    omega
  · intro h
    unfold report_preview
    rw [if_pos h]
    rfl
  · intro h
    unfold report_preview
    rw [if_neg (by omega)]
    rfl

/-- C5 witness: on a 501-character text the ellipsis line is present. -/
theorem report_preview_first_500_stripped_witness :
    report_preview (List.replicate 501 'a') =
      [pyStrip ((List.replicate 501 'a').take 500), ['.', '.', '.']] :=
  (report_preview_first_500_stripped (List.replicate 501 'a')).2.2.2.1
    (by rw [List.length_replicate]; omega)

/-- C5 counterexample: on the two-character text `" a"` the preview line is
the stripped `"a"`, not the first 500 characters verbatim. -/
theorem report_preview_not_verbatim :
    (report_preview [' ', 'a']).head? = some ['a'] ∧ (['a'] : List Char) ≠ [' ', 'a'] := by
  decide

/-- C3 (amended): normalization strips and lowercases every whitespace
token but keeps tokens that become empty (the `if word.strip()` guard tests
the original token): no token is discarded, the unique-word count is the
number of distinct cleaned tokens including a possible empty string, and
the empty string is nevertheless excluded from the top-words ranking only
because the stop-word set contains `''`. -/
theorem normalization_keeps_empty_tokens (t : List Char) :
    (clean_words t).length = (pySplit t).length ∧
    (analyze_text t).unique_words = (dedupFirst (clean_words t)).length ∧
    ∀ p ∈ (analyze_text t).top_words, p.1 ≠ [] := by
  refine ⟨clean_words_length t, rfl, ?_⟩
  intro p hp
  have hp2 : p ∈ ((meaningful_words t).insertionSort countGE).take 30 := hp
  have h1 : p ∈ (meaningful_words t).insertionSort countGE := List.mem_of_mem_take hp2
  have h2 : p ∈ meaningful_words t := (List.mem_insertionSort countGE).mp h1
  have h3 := (List.mem_filter.mp h2).2
  have h4 : p.1 ∉ stop_words := by
    have := (Bool.and_eq_true _ _).mp h3 |>.1
    simpa using this
  intro hnil
  apply h4
  rw [hnil]
  decide

/-- C3 witness: the amended normalization facts evaluated on `"!!!"`. -/
theorem normalization_keeps_empty_tokens_witness :
    (clean_words ['!', '!', '!']).length = (pySplit ['!', '!', '!']).length :=
  (normalization_keeps_empty_tokens ['!', '!', '!']).1

/-- C3 counterexample: the token `"!!!"` is cleaned to the empty string,
which is kept and counted: `unique_words = 1`, not 0 as the claim's
"discard empty tokens" reading would require. -/
theorem normalization_empty_token_kept :
    clean_words ['!', '!', '!'] = [[]] ∧ (analyze_text ['!', '!', '!']).unique_words = 1 := by
  decide

/-- C8: the unique-word count never exceeds the word count, and both are
nonnegative (they are natural numbers). -/
theorem unique_words_le_word_count (t : List Char) :
    (analyze_text t).unique_words ≤ (analyze_text t).word_count ∧
    0 ≤ (analyze_text t).unique_words ∧ 0 ≤ (analyze_text t).word_count := by
  refine ⟨?_, Nat.zero_le _, Nat.zero_le _⟩
  show (dedupFirst (clean_words t)).length ≤ (pySplit t).length
  calc (dedupFirst (clean_words t)).length ≤ (clean_words t).length :=
        dedupFirst_length_le _
    _ = (pySplit t).length := clean_words_length t

/-- C9: `analyze_text` is total — with Python's partial division made
explicit (`pyDiv` is `none` on a zero divisor), both average computations
still succeed on every input because the source guards them, and each
average is 0 when its denominator is 0. -/
theorem analyze_text_total_guarded (t : List Char) :
    avg_word_length_checked t = some ((analyze_text t).avg_word_length) ∧
    avg_sentence_length_checked t = some ((analyze_text t).avg_sentence_length) ∧
    ((clean_words t).length = 0 → (analyze_text t).avg_word_length = 0) ∧
    (sentence_count t = 0 → (analyze_text t).avg_sentence_length = 0) := by
  have hw : (analyze_text t).avg_word_length =
      if 0 < (clean_words t).length then
        (total_word_length t : ℚ) / ((clean_words t).length : ℚ) else 0 := rfl
  have hs : (analyze_text t).avg_sentence_length =
      if 0 < sentence_count t then
        ((pySplit t).length : ℚ) / (sentence_count t : ℚ) else 0 := rfl
  refine ⟨?_, ?_, ?_, ?_⟩
  · rw [hw]
    unfold avg_word_length_checked pyDiv
    by_cases h : 0 < (clean_words t).length
    · rw [if_pos h, if_pos h, if_neg ?_]
      exact Nat.cast_ne_zero.mpr (by omega)
    · rw [if_neg h, if_neg h]
  · rw [hs]
    unfold avg_sentence_length_checked pyDiv
    by_cases h : 0 < sentence_count t
    · rw [if_pos h, if_pos h, if_neg ?_]
      exact Nat.cast_ne_zero.mpr (by omega)
    · rw [if_neg h, if_neg h]
  · intro h
    rw [hw, if_neg (by omega)]
  · intro h
    rw [hs, if_neg (by omega)]

/-- C9 witness: on the empty text both checked averages succeed and the
word-length average is 0. -/
theorem analyze_text_total_guarded_witness :
    avg_word_length_checked [] = some ((analyze_text []).avg_word_length) ∧
    (analyze_text []).avg_word_length = 0 :=
  ⟨(analyze_text_total_guarded []).1, (analyze_text_total_guarded []).2.2.1 (by decide)⟩

/-! ## Lemmas about the section scanner -/

theorem ciStarts_length {w s : List Char} (h : ciStarts w s = true) :
    w.length ≤ s.length := by
  induction w generalizing s with
  | nil => simp
  | cons p ps ih =>
    cases s with
    | nil => simp [ciStarts] at h
    | cons c cs =>
      rw [ciStarts] at h
      have h2 := (Bool.and_eq_true _ _).mp h
      have := ih h2.2
      simp only [List.length_cons]
      omega

theorem matchLenAt_nil {alts : List (List Char)} (h : ∀ w ∈ alts, w ≠ []) :
    matchLenAt alts [] = none := by
  induction alts with
  | nil => rfl
  | cons w ws ih =>
    rw [matchLenAt]
    have hw := h w (List.mem_cons_self _ _)
    cases w with
    | nil => exact absurd rfl hw
    | cons p ps =>
      rw [if_neg (by simp [ciStarts])]
      exact ih (fun v hv => h v (List.mem_cons_of_mem _ hv))

theorem matchLenAt_bounds {alts : List (List Char)} {s : List Char} {len : Nat}
    (hne : ∀ w ∈ alts, w ≠ []) (h : matchLenAt alts s = some len) :
    1 ≤ len ∧ len ≤ s.length := by
  induction alts with
  | nil => simp [matchLenAt] at h
  | cons w ws ih =>
    rw [matchLenAt] at h
    by_cases hc : ciStarts w s = true
    · rw [if_pos hc] at h
      have hlen : w.length = len := by injection h
      have h1 := ciStarts_length hc
      have h2 : w ≠ [] := hne w (List.mem_cons_self _ _)
      have h3 : 1 ≤ w.length := by
        cases w with
        | nil => exact absurd rfl h2
        | cons a b => simp
      omega
    · rw [if_neg hc] at h
      exact ih (fun v hv => hne v (List.mem_cons_of_mem _ hv)) h

theorem scanPosF_mem {alts : List (List Char)} (hne : ∀ w ∈ alts, w ≠ []) :
    ∀ (fuel i : Nat) (s : List Char), s.length < fuel →
      ∀ p ∈ scanPosF alts fuel i s,
        i ≤ p ∧ (matchLenAt alts (s.drop (p - i))).isSome = true := by
  intro fuel
  induction fuel with
  | zero => intro i s h; omega
  | succ fuel ih =>
    intro i s hlen p hp
    cases s with
    | nil => simp [scanPosF] at hp
    | cons c rest =>
      rw [scanPosF] at hp
      cases hm : matchLenAt alts (c :: rest) with
      | none =>
        rw [hm] at hp
        have hr : rest.length < fuel := by
          simp only [List.length_cons] at hlen
          omega
        obtain ⟨h1, h2⟩ := ih (i + 1) rest hr p hp
        refine ⟨by omega, ?_⟩
        have harith : p - i = (p - (i + 1)) + 1 := by omega
        rw [harith, List.drop_succ_cons]
        exact h2
      | some len =>
        rw [hm] at hp
        rcases List.mem_cons.mp hp with h1 | h1
        · subst h1
          refine ⟨Nat.le_refl _, ?_⟩
          simp [hm]
        · obtain ⟨hl1, hl2⟩ := matchLenAt_bounds hne hm
          have hr : (rest.drop (len - 1)).length < fuel := by
            simp only [List.length_drop, List.length_cons] at hlen ⊢
            omega
          obtain ⟨h1a, h2a⟩ := ih (i + len) (rest.drop (len - 1)) hr p h1
          refine ⟨by omega, ?_⟩
          rw [List.drop_drop] at h2a
          have e2 : (len - 1) + (p - (i + len)) = (p - i) - 1 := by omega
          rw [e2] at h2a
          have e3 : p - i = ((p - i) - 1) + 1 := by omega
          rw [e3, List.drop_succ_cons]
          exact h2a

theorem scanPosF_nil_no_match {alts : List (List Char)} (hne : ∀ w ∈ alts, w ≠ []) :
    ∀ (fuel i : Nat) (s : List Char), s.length < fuel →
      scanPosF alts fuel i s = [] →
      ∀ k, (matchLenAt alts (s.drop k)).isSome = false := by
  intro fuel
  induction fuel with
  | zero => intro i s h; omega
  | succ fuel ih =>
    intro i s hlen hres k
    cases s with
    | nil =>
      rw [List.drop_nil, matchLenAt_nil hne]
      rfl
    | cons c rest =>
      rw [scanPosF] at hres
      cases hm : matchLenAt alts (c :: rest) with
      | some len =>
        rw [hm] at hres
        exact absurd hres (by simp)
      | none =>
        rw [hm] at hres
        cases k with
        | zero => simp [hm]
        | succ k2 =>
          rw [List.drop_succ_cons]
          refine ih (i + 1) rest ?_ hres k2
          simp only [List.length_cons] at hlen
          omega

theorem scanPosF_head {alts : List (List Char)} (hne : ∀ w ∈ alts, w ≠ []) :
    ∀ (fuel i : Nat) (s : List Char) (p : Nat) (r : List Nat), s.length < fuel →
      scanPosF alts fuel i s = p :: r →
      i ≤ p ∧ (matchLenAt alts (s.drop (p - i))).isSome = true ∧
        ∀ k < p - i, (matchLenAt alts (s.drop k)).isSome = false := by
  intro fuel
  induction fuel with
  | zero => intro i s p r h; omega
  | succ fuel ih =>
    intro i s p r hlen hres
    cases s with
    | nil =>
      rw [scanPosF] at hres
      exact absurd hres (by simp)
    | cons c rest =>
      rw [scanPosF] at hres
      cases hm : matchLenAt alts (c :: rest) with
      | some len =>
        rw [hm] at hres
        have hip : i = p := by injection hres
        subst hip
        refine ⟨Nat.le_refl _, ?_, ?_⟩
        · simp [hm]
        · intro k hk
          omega
      | none =>
        rw [hm] at hres
        have hr : rest.length < fuel := by
          simp only [List.length_cons] at hlen
          omega
        obtain ⟨h1, h2, h3⟩ := ih (i + 1) rest p r hr hres
        refine ⟨by omega, ?_, ?_⟩
        · have e : p - i = (p - (i + 1)) + 1 := by omega
          rw [e, List.drop_succ_cons]
          exact h2
        · intro k hk
          cases k with
          | zero => simp [hm]
          | succ k2 =>
            rw [List.drop_succ_cons]
            exact h3 k2 (by omega)

theorem section_patterns_ne_nil :
    ∀ q ∈ section_patterns, ∀ w ∈ q.2, w ≠ [] := by
  decide

/-! ## Claim theorems for the section detector -/

/-- C2 (amended): for every text and each of the six sections, the detector
counts case-insensitive occurrences of the section's synonym set as
non-overlapping substring matches anywhere in the text — including inside
longer words, since the patterns carry no word boundaries: `found` is true
iff some offset matches, `occurrences` is the number of non-overlapping
matches recorded by the left-to-right scan, and `first_position` is the
least matching offset. -/
theorem find_key_sections_substring_matching (t : List Char) (name : String)
    (alts : List (List Char)) (hq : (name, alts) ∈ section_patterns) :
    ((sectionRecord alts t).found = true ↔ ∃ k, matchAtB alts t k = true) ∧
    ((sectionRecord alts t).found = true →
      (sectionRecord alts t).occurrences = some (scanPositions alts t).length) ∧
    (∀ p, (sectionRecord alts t).first_position = some p →
      matchAtB alts t p = true ∧ ∀ k < p, matchAtB alts t k = false) := by
  have hne : ∀ w ∈ alts, w ≠ [] := section_patterns_ne_nil (name, alts) hq
  have hfuel : t.length < t.length + 1 := Nat.lt_succ_self _
  refine ⟨⟨?_, ?_⟩, ?_, ?_⟩
  · intro hf
    rcases hs : scanPositions alts t with _ | ⟨p, r⟩
    · simp [sectionRecord, hs] at hf
    · obtain ⟨h1, h2, h3⟩ := scanPosF_head hne _ 0 t p r hfuel hs
      refine ⟨p, ?_⟩
      rw [matchAtB]
      simpa using h2
  · rintro ⟨k, hk⟩
    rcases hs : scanPositions alts t with _ | ⟨p, r⟩
    · have := scanPosF_nil_no_match hne _ 0 t hfuel hs k
      rw [matchAtB] at hk
      rw [this] at hk
      exact absurd hk (by simp)
    · simp [sectionRecord, hs]
  · intro hf
    rcases hs : scanPositions alts t with _ | ⟨p, r⟩
    · simp [sectionRecord, hs] at hf
    · simp [sectionRecord, hs]
  · intro p hp
    rcases hs : scanPositions alts t with _ | ⟨p2, r⟩
    · simp [sectionRecord, hs] at hp
    · simp only [sectionRecord, hs, Option.some_inj] at hp
      subst hp
      obtain ⟨h1, h2, h3⟩ := scanPosF_head hne _ 0 t p2 r hfuel hs
      constructor
      · rw [matchAtB]
        simpa using h2
      · intro k hk
        rw [matchAtB]
        exact h3 k (by omega)

/-- C2 witness: the introduction pattern matches the text "abstract". -/
theorem find_key_sections_substring_matching_witness :
    (sectionRecord (["introduction", "overview", "abstract"].map String.toList)
      "abstract".toList).found = true :=
  ((find_key_sections_substring_matching "abstract".toList "introduction"
      (["introduction", "overview", "abstract"].map String.toList) (by decide)).1).mpr
    ⟨0, by decide⟩

/-- C2 counterexample: in "reintroduction" the synonym "introduction" occurs
only inside a longer word; the code still reports found=True with one
occurrence at offset 2, while whole-word matching (what the claim asserts)
matches at no offset at all. -/
theorem find_key_sections_counts_inside_words :
    sectionRecord (["introduction", "overview", "abstract"].map String.toList)
        "reintroduction".toList =
      { found := true, occurrences := some 1, first_position := some 2 } ∧
    (List.range "reintroduction".toList.length).all
      (fun p => !specWholeWordMatch
        (["introduction", "overview", "abstract"].map String.toList)
        "reintroduction".toList p) = true := by
  decide

/-- C10: a section record carries `occurrences` and `first_position` exactly
when `found` is true; a not-found record consists of the found=False flag
with neither of the other fields present. -/
theorem section_record_fields_iff_found (t : List Char) (name : String)
    (alts : List (List Char)) (hq : (name, alts) ∈ section_patterns) :
    ((sectionRecord alts t).occurrences.isSome = (sectionRecord alts t).found) ∧
    ((sectionRecord alts t).first_position.isSome = (sectionRecord alts t).found) ∧
    ((sectionRecord alts t).found = false →
      sectionRecord alts t =
        { found := false, occurrences := none, first_position := none }) := by
  rcases hs : scanPositions alts t with _ | ⟨p, r⟩ <;> simp [sectionRecord, hs]

/-- C10 witness: on the empty text the introduction record is the bare
found=False record. -/
theorem section_record_fields_iff_found_witness :
    sectionRecord (["introduction", "overview", "abstract"].map String.toList) [] =
      { found := false, occurrences := none, first_position := none } :=
  (section_record_fields_iff_found [] "introduction"
      (["introduction", "overview", "abstract"].map String.toList) (by decide)).2.2
    (by decide)

/-! ## Lemmas about counter key order and ranking stability -/

theorem dedupFirst_pairwise (ws : List (List Char)) :
    (dedupFirst ws).Pairwise (fun a b => firstIdx a ws < firstIdx b ws) := by
  induction ws with
  | nil => simp [dedupFirst]
  | cons w ws ih =>
    rw [dedupFirst]
    constructor
    · intro b hb
      have hbne : b ≠ w := by
        have := (List.mem_filter.mp hb).2
        simpa using this
      rw [firstIdx, if_pos rfl, firstIdx, if_neg (fun h => hbne h.symm)]
      omega
    · have hf := (ih.filter (fun x => decide (x ≠ w)))
      refine hf.imp_of_mem ?_
      intro a b ha hb hab
      have hane : a ≠ w := by
        have := (List.mem_filter.mp ha).2
        simpa using this
      have hbne : b ≠ w := by
        have := (List.mem_filter.mp hb).2
        simpa using this
      rw [firstIdx, if_neg (fun h => hane h.symm), firstIdx, if_neg (fun h => hbne h.symm)]
      omega

theorem dedupFirst_nodup (ws : List (List Char)) : (dedupFirst ws).Nodup := by
  induction ws with
  | nil => simp [dedupFirst]
  | cons w ws ih =>
    rw [dedupFirst]
    refine List.nodup_cons.mpr ⟨?_, ih.filter _⟩
    intro hmem
    have := (List.mem_filter.mp hmem).2
    simp at this

theorem foldl_counterAdd_keys :
    ∀ (ws : List (List Char)) (acc : List (List Char × Nat)),
      (ws.foldl counterAdd acc).map Prod.fst =
        acc.map Prod.fst ++
          (dedupFirst ws).filter (fun x => decide (x ∉ acc.map Prod.fst)) := by
  intro ws
  induction ws with
  | nil =>
    intro acc
    simp [dedupFirst]
  | cons w ws ih =>
    intro acc
    rw [List.foldl_cons, ih (counterAdd acc w)]
    by_cases hw : w ∈ acc.map Prod.fst
    · have hkeys : (counterAdd acc w).map Prod.fst = acc.map Prod.fst := by
        rw [counterAdd, if_pos hw, List.map_map]
        apply List.map_congr_left
        intro p hp
        by_cases h : p.1 = w
        · simp [Function.comp, h]
        · simp [Function.comp, h]
      rw [hkeys]
      congr 1
      rw [dedupFirst]
      simp only [List.filter_cons]
      rw [if_neg (by simpa using hw)]
      rw [List.filter_filter]
      apply List.filter_congr
      intro x hx
      by_cases hxk : x ∈ acc.map Prod.fst
      · simp [hxk]
      · have hxw : x ≠ w := fun h => hxk (h ▸ hw)
        simp [hxk, hxw]
    · have hkeys : (counterAdd acc w).map Prod.fst = acc.map Prod.fst ++ [w] := by
        rw [counterAdd, if_neg hw, List.map_append]
        rfl
      rw [hkeys]
      rw [dedupFirst]
      simp only [List.filter_cons]
      rw [if_pos (by simpa using hw)]
      rw [List.append_assoc, List.singleton_append]
      congr 2
      rw [List.filter_filter]
      apply List.filter_congr
      intro x hx
      by_cases hxw : x = w
      · subst hxw
        simp
      · by_cases hxk : x ∈ acc.map Prod.fst
        · simp [hxk, hxw]
        · simp [hxk, hxw]

theorem word_freq_keys (t : List Char) :
    (word_freq t).map Prod.fst = dedupFirst (clean_words t) := by
  rw [word_freq, foldl_counterAdd_keys]
  rw [List.map_nil, List.nil_append]
  apply List.filter_eq_self.mpr
  intro x hx
  simp

theorem map_fst_filter_key (l : List (List Char × Nat)) (q : List Char → Bool) :
    (l.filter (fun p => q p.1)).map Prod.fst = (l.map Prod.fst).filter q := by
  induction l with
  | nil => rfl
  | cons x xs ih =>
    simp only [List.filter_cons, List.map_cons]
    by_cases h : q x.1
    · rw [if_pos h, if_pos h, List.map_cons, ih]
    · rw [if_neg h, if_neg h, ih]

theorem meaningful_keys (t : List Char) :
    (meaningful_words t).map Prod.fst =
      ((word_freq t).map Prod.fst).filter
        (fun w => decide (w ∉ stop_words) && decide (2 < w.length)) := by
  rw [meaningful_words]
  exact map_fst_filter_key (word_freq t)
    (fun w => decide (w ∉ stop_words) && decide (2 < w.length))

theorem meaningful_keys_pairwise (t : List Char) :
    ((meaningful_words t).map Prod.fst).Pairwise
      (fun a b => firstIdx a (clean_words t) < firstIdx b (clean_words t)) := by
  rw [meaningful_keys, word_freq_keys]
  exact (dedupFirst_pairwise _).filter _

theorem meaningful_keys_nodup (t : List Char) :
    ((meaningful_words t).map Prod.fst).Nodup := by
  rw [meaningful_keys, word_freq_keys]
  exact (dedupFirst_nodup _).filter _

theorem pair_sublist_of_getElem {α : Type} {l : List α} {p q : Nat} {a b : α}
    (hpq : p < q) (ha : l[p]? = some a) (hb : l[q]? = some b) : List.Sublist [a, b] l := by
  induction l generalizing p q with
  | nil => simp at ha
  | cons x xs ih =>
    cases p with
    | zero =>
      rw [List.getElem?_cons_zero] at ha
      have hax : x = a := by injection ha
      subst hax
      cases q with
      | zero => omega
      | succ q2 =>
        rw [List.getElem?_cons_succ] at hb
        have hbmem : b ∈ xs := List.mem_iff_getElem?.mpr ⟨q2, hb⟩
        exact List.Sublist.cons₂ _ (List.singleton_sublist.mpr hbmem)
    | succ p2 =>
      cases q with
      | zero => omega
      | succ q2 =>
        rw [List.getElem?_cons_succ] at ha hb
        exact List.Sublist.cons _ (ih (by omega) ha hb)

theorem pair_sublist_getElem {α : Type} {l : List α} {a b : α}
    (h : List.Sublist [a, b] l) :
    ∃ p q : Nat, p < q ∧ l[p]? = some a ∧ l[q]? = some b := by
  induction l with
  | nil => simp at h
  | cons x xs ih =>
    cases h with
    | cons _ h2 =>
      obtain ⟨p, q, hpq, ha, hb⟩ := ih h2
      exact ⟨p + 1, q + 1, by omega, by simpa using ha, by simpa using hb⟩
    | cons₂ _ h2 =>
      have hbmem : b ∈ xs := List.singleton_sublist.mp h2
      obtain ⟨q, hq⟩ := List.mem_iff_getElem?.mp hbmem
      exact ⟨0, q + 1, by omega, by simp, by simpa using hq⟩

theorem nodup_getElem?_inj {α : Type} {l : List α} (h : l.Nodup) {i j : Nat} {a : α}
    (hi : l[i]? = some a) (hj : l[j]? = some a) : i = j := by
  by_contra hne
  rcases Nat.lt_or_ge i j with hlt | hge
  · have hjlen : j < l.length := (List.getElem?_eq_some_iff.mp hj).1
    exact (List.nodup_iff_getElem?_ne_getElem?.mp h i j hlt hjlen) (hi.trans hj.symm)
  · have hlt : j < i := by omega
    have hilen : i < l.length := (List.getElem?_eq_some_iff.mp hi).1
    exact (List.nodup_iff_getElem?_ne_getElem?.mp h j i hlt hilen) (hj.trans hi.symm)

theorem pairwise_rel_of_getElem? {α : Type} {R : α → α → Prop} {l : List α}
    (h : l.Pairwise R) {p q : Nat} {a b : α} (hpq : p < q)
    (ha : l[p]? = some a) (hb : l[q]? = some b) : R a b := by
  obtain ⟨hpl, hpa⟩ := List.getElem?_eq_some_iff.mp ha
  obtain ⟨hql, hqb⟩ := List.getElem?_eq_some_iff.mp hb
  have h2 := List.pairwise_iff_getElem.mp h p q hpl hql hpq
  rwa [hpa, hqb] at h2

/-! ## Claim theorem for top-words ranking stability -/

/-- C6: the top-words list is ordered by descending count, and for two
entries with equal counts the earlier-ranked word's first occurrence in the
normalized token stream comes first: `Counter.most_common(30)` is a stable
descending sort of a frequency table whose keys are in first-occurrence
order. -/
theorem top_words_rank_stable (t : List Char) (i j : Nat) (wi wj : List Char) (ci cj : Nat)
    (hij : i < j)
    (hi : (analyze_text t).top_words[i]? = some (wi, ci))
    (hj : (analyze_text t).top_words[j]? = some (wj, cj)) :
    cj ≤ ci ∧ (ci = cj → firstIdx wi (clean_words t) < firstIdx wj (clean_words t)) := by
  have hi2 : (((meaningful_words t).insertionSort countGE).take 30)[i]? =
      some (wi, ci) := hi
  have hj2 : (((meaningful_words t).insertionSort countGE).take 30)[j]? =
      some (wj, cj) := hj
  have hi30 : i < 30 := by
    have hlen := (List.getElem?_eq_some_iff.mp hi2).1
    rw [List.length_take] at hlen
    omega
  have hj30 : j < 30 := by
    have hlen := (List.getElem?_eq_some_iff.mp hj2).1
    rw [List.length_take] at hlen
    omega
  rw [List.getElem?_take_of_lt hi30] at hi2
  rw [List.getElem?_take_of_lt hj30] at hj2
  have hsort : ((meaningful_words t).insertionSort countGE).Pairwise countGE :=
    List.sorted_insertionSort countGE (meaningful_words t)
  have hle : countGE (wi, ci) (wj, cj) := pairwise_rel_of_getElem? hsort hij hi2 hj2
  refine ⟨hle, ?_⟩
  intro hcc
  have hperm : List.Perm ((meaningful_words t).insertionSort countGE)
      (meaningful_words t) :=
    List.perm_insertionSort countGE _
  have hkeysN : (((meaningful_words t).insertionSort countGE).map Prod.fst).Nodup :=
    ((hperm.map Prod.fst).nodup_iff).mpr (meaningful_keys_nodup t)
  have hLN : ((meaningful_words t).insertionSort countGE).Nodup :=
    List.Nodup.of_map Prod.fst hkeysN
  have hwne : wi ≠ wj := by
    intro he
    have hki : (((meaningful_words t).insertionSort countGE).map Prod.fst)[i]? =
        some wi := by
      rw [List.getElem?_map, hi2]
      rfl
    have hkj : (((meaningful_words t).insertionSort countGE).map Prod.fst)[j]? =
        some wi := by
      rw [List.getElem?_map, hj2, he]
      rfl
    exact absurd (nodup_getElem?_inj hkeysN hki hkj) (by omega)
  have hmi : (wi, ci) ∈ meaningful_words t := by
    have hmem : (wi, ci) ∈ (meaningful_words t).insertionSort countGE :=
      List.mem_iff_getElem?.mpr ⟨i, hi2⟩
    exact (List.mem_insertionSort countGE).mp hmem
  have hmj : (wj, cj) ∈ meaningful_words t := by
    have hmem : (wj, cj) ∈ (meaningful_words t).insertionSort countGE :=
      List.mem_iff_getElem?.mpr ⟨j, hj2⟩
    exact (List.mem_insertionSort countGE).mp hmem
  obtain ⟨p, hp⟩ := List.mem_iff_getElem?.mp hmi
  obtain ⟨q, hq⟩ := List.mem_iff_getElem?.mp hmj
  have hpq : p < q := by
    by_contra hge
    have hneq : q ≠ p := by
      intro he2
      rw [he2] at hq
      have he3 : (wi, ci) = (wj, cj) := by
        have := hp.symm.trans hq
        injection this
      exact hwne (congrArg Prod.fst he3)
    have hqp : q < p := by omega
    have hsub : List.Sublist [(wj, cj), (wi, ci)] (meaningful_words t) :=
      pair_sublist_of_getElem hqp hq hp
    have hpair : countGE (wj, cj) (wi, ci) := by
      show ci ≤ cj
      omega
    have hsubL : List.Sublist [(wj, cj), (wi, ci)]
        ((meaningful_words t).insertionSort countGE) :=
      List.pair_sublist_insertionSort hpair hsub
    obtain ⟨u, v, huv, hu, hv⟩ := pair_sublist_getElem hsubL
    have hui : u = j := nodup_getElem?_inj hLN hu hj2
    have hvi : v = i := nodup_getElem?_inj hLN hv hi2
    omega
  have hkp := meaningful_keys_pairwise t
  have hkpi : ((meaningful_words t).map Prod.fst)[p]? = some wi := by
    rw [List.getElem?_map, hp]
    rfl
  have hkpj : ((meaningful_words t).map Prod.fst)[q]? = some wj := by
    rw [List.getElem?_map, hq]
    rfl
  exact pairwise_rel_of_getElem? hkp hpq hkpi hkpj

/-- C6 witness: on a small text with a count tie, the tie resolves to the
word seen first. -/
theorem top_words_rank_stable_witness :
    (2 ≤ 2) ∧
    (2 = 2 →
      firstIdx "apple".toList (clean_words "apple apple banana orange orange".toList) <
      firstIdx "orange".toList (clean_words "apple apple banana orange orange".toList)) :=
  top_words_rank_stable "apple apple banana orange orange".toList 0 1
    "apple".toList "orange".toList 2 2 (by omega) (by decide) (by decide)

end PdfAnalyzer
